import Mathlib

/-!
Verification development for the lwpkt-rs packet codec and transport bridge.

The Rust crate wraps the C libraries `lwpkt` (packet framing state machine)
and `lwrb` (byte ring buffer) behind a safe interface, and bridges the codec
buffers to an external raw transport through two bounded channels.

The C libraries are vendored as a git submodule and are not part of the
crate's own sources; their behaviour is modelled here from the design
document (ring buffer semantics, frame layout, decode state machine).
Everything else — the `LwPkt::write` drain loop, the `LwPkt::read` chunk
loop, the `std::io::Read`/`std::io::Write` implementation on `LwPktRaw`, and
the bounded channel plumbing — is translated directly from `src/lib.rs`.
-/

set_option maxRecDepth 4096

/-- Modelled from the spec: status codes of the codec, mirroring the crate's
`Error` enum plus the non-error control outcomes (`lwpktr_t` of the missing
C library). -/
inductive Lwpktr where
  | OK
  | ERR
  | INPROG
  | VALID
  | ERRCRC
  | ERRSTOP
  | WAITDATA
  | ERRMEM
deriving DecidableEq, Repr

/-- Errors surfaced by the safe wrapper (`Error` in `src/lib.rs`). -/
inductive WErr where
  | ERR
  | InProgress
  | Valid
  | ErrorCRC
  | ErrStop
  | WaitData
  | ErrorMem
  | ErrorClosedRaw
deriving DecidableEq, Repr

/-- Conversion from codec status to wrapper error (`From<lwpktr_t::Type> for
Error` in `src/lib.rs`). -/
def errOf : Lwpktr → WErr
  | .OK => .ERR
  | .ERR => .ERR
  | .INPROG => .InProgress
  | .VALID => .Valid
  | .ERRCRC => .ErrorCRC
  | .ERRSTOP => .ErrStop
  | .WAITDATA => .WaitData
  | .ERRMEM => .ErrorMem

/-- Modelled from the spec: the RingBuffer (§4.1): fixed capacity, FIFO byte
store; `lwrb` itself is not in the crate's sources. The byte list `buf` holds
the currently stored bytes, oldest first. -/
structure LwRb where
  cap : Nat
  buf : List Nat
deriving DecidableEq, Repr

/-- Modelled from the spec: `free_space()` of the RingBuffer. -/
def LwRb.free (rb : LwRb) : Nat := rb.cap - rb.buf.length

/-- Modelled from the spec: RingBuffer write — stores a prefix of the input
of length `min free len` and returns the count stored. -/
def lwrb_write (rb : LwRb) (bytes : List Nat) : LwRb × Nat :=
  let n := min rb.free bytes.length
  ({ rb with buf := rb.buf ++ bytes.take n }, n)

/-- Modelled from the spec: RingBuffer read — drains up to `maxLen` bytes in
FIFO order. -/
def lwrb_read (rb : LwRb) (maxLen : Nat) : LwRb × List Nat :=
  ({ rb with buf := rb.buf.drop maxLen }, rb.buf.take maxLen)

/-- Decoded/encoded message value (`Package` in `src/lib.rs`). The `from`
field of the source is written `from_` because `from` is a Lean keyword. -/
structure Package where
  cmd : Nat
  from_ : Nat
  to_ : Nat
  data : List Nat
deriving DecidableEq, Repr

/-- Modelled from the spec: compile-time `MAX_DATA_LEN` (`LWPKT_CFG_MAX_DATA_LEN`,
the default of the vendored options header). -/
def LWPKT_CFG_MAX_DATA_LEN : Nat := 256

/-- Modelled from the spec: start delimiter of a frame. -/
def LWPKT_START : Nat := 0xAA

/-- Modelled from the spec: stop delimiter of a frame. -/
def LWPKT_STOP : Nat := 0x55

/-- Little-endian 4-byte encoding of the 32-bit command id. -/
def byte4 (c : Nat) : List Nat :=
  [c % 256, c / 256 % 256, c / 65536 % 256, c / 16777216 % 256]

/-- Little-endian 2-byte encoding of the payload length. -/
def byte2 (n : Nat) : List Nat := [n % 256, n / 256 % 256]

/-- Modelled from the spec: checksum over header (addresses, command id,
length) and payload, reduced mod 256. Encoder and decoder share this
definition, as the spec requires only that they agree. -/
def crcOf (f t c : Nat) (d : List Nat) : Nat :=
  (f + t + (byte4 c).sum + (byte2 d.length).sum + d.sum) % 256

/-- Modelled from the spec: wire frame of one packet — start delimiter,
source address, destination address, command id, payload length, payload,
checksum over header+payload, stop delimiter (§6). -/
def encodeFrame (a dst c : Nat) (data : List Nat) : List Nat :=
  [LWPKT_START, a, dst] ++ byte4 c ++ byte2 data.length ++ data
    ++ [crcOf a dst c data] ++ [LWPKT_STOP]

/-- Modelled from the spec: decode states of the PacketCodec (§3): `Idle`
scans for the start delimiter, the header is read field by field, then
payload, checksum, stop. In-progress field values ride on the state. -/
inductive DState where
  | idle
  | sFrom
  | sTo (f : Nat)
  | sCmd0 (f t : Nat)
  | sCmd1 (f t c0 : Nat)
  | sCmd2 (f t c0 c1 : Nat)
  | sCmd3 (f t c0 c1 c2 : Nat)
  | sLen0 (f t c : Nat)
  | sLen1 (f t c l0 : Nat)
  | sData (f t c len : Nat) (acc : List Nat)
  | sCrc (f t c : Nat) (data : List Nat)
  | sStop (f t c : Nat) (data : List Nat)
deriving DecidableEq, Repr

/-- Outcome of feeding one byte to the decode state machine. -/
inductive StepRes where
  | cont (s : DState)
  | fail (e : Lwpktr)
  | valid (p : Package)
deriving DecidableEq, Repr

/-- Modelled from the spec: one byte of progress of the decode state machine
(§3, §4.2). Any error resets to `Idle`; a completed frame yields the packet. -/
def stepByte : DState → Nat → StepRes
  | .idle, b => .cont (if b = LWPKT_START then .sFrom else .idle)
  | .sFrom, b => .cont (.sTo b)
  | .sTo f, b => .cont (.sCmd0 f b)
  | .sCmd0 f t, b => .cont (.sCmd1 f t b)
  | .sCmd1 f t c0, b => .cont (.sCmd2 f t c0 b)
  | .sCmd2 f t c0 c1, b => .cont (.sCmd3 f t c0 c1 b)
  | .sCmd3 f t c0 c1 c2, b =>
      .cont (.sLen0 f t (c0 + 256 * c1 + 65536 * c2 + 16777216 * b))
  | .sLen0 f t c, b => .cont (.sLen1 f t c b)
  | .sLen1 f t c l0, b =>
      .cont (if l0 + 256 * b = 0 then .sCrc f t c []
             else .sData f t c (l0 + 256 * b) [])
  | .sData f t c len acc, b =>
      .cont (if len ≤ acc.length + 1 then .sCrc f t c (acc ++ [b])
             else .sData f t c len (acc ++ [b]))
  | .sCrc f t c d, b =>
      if b = crcOf f t c d then .cont (.sStop f t c d) else .fail .ERRCRC
  | .sStop f t c d, b =>
      if b = LWPKT_STOP then .valid ⟨c, f, t, d⟩ else .fail .ERRSTOP

/-- Result code the decoder reports when it stops without a terminal outcome:
`WAITDATA` in `Idle`, `INPROG` mid-frame. -/
def nonterm : DState → Lwpktr
  | .idle => .WAITDATA
  | _ => .INPROG

/-- Modelled from the spec: the decode loop of `lwpkt_read` — consume
buffered bytes one at a time until a frame completes, an error occurs, or
input runs out. Returns the final state, the unconsumed bytes, the status
code and the decoded packet, if any. -/
def readGo : DState → List Nat → DState × List Nat × Lwpktr × Option Package
  | st, [] => (st, [], nonterm st, none)
  | st, b :: rest =>
    match stepByte st b with
    | .cont st2 => readGo st2 rest
    | .fail e => (.idle, rest, e, none)
    | .valid p => (.idle, rest, .VALID, some p)

/-- Codec instance state (`lwpkt` of the missing C library): local address,
decode state, and the most recently decoded packet fields `m` read by the
accessors `get_cmd`/`get_from`/`get_to`/`get_data` of `src/lib.rs`. -/
structure Lwpkt where
  addr : Nat
  state : DState
  m : Package
deriving DecidableEq, Repr

/-- Modelled from the spec: `lwpkt_read` — advance the state machine on the
bytes currently buffered in the inbound RingBuffer (§4.2). An empty buffer
reports `WAITDATA` and changes nothing. -/
def lwpkt_read (pkt : Lwpkt) (rb : LwRb) : Lwpkt × LwRb × Lwpktr :=
  match rb.buf with
  | [] => (pkt, rb, .WAITDATA)
  | _ :: _ =>
    match readGo pkt.state rb.buf with
    | (st2, rest, code, p?) =>
      ({ pkt with state := st2, m := p?.getD pkt.m }, { rb with buf := rest }, code)

/-- Modelled from the spec: `lwpkt_write` — reject oversize payloads with a
memory error, otherwise serialize the whole frame and append it atomically
to the outbound RingBuffer, failing with a memory error and leaving the
buffer unchanged when it does not fit (§4.2). The `from` field is stamped
from the codec's local address. -/
def lwpkt_write (pkt : Lwpkt) (rb : LwRb) (dst c : Nat) (data : List Nat) :
    LwRb × Lwpktr :=
  if LWPKT_CFG_MAX_DATA_LEN < data.length then (rb, .ERRMEM)
  else
    let frame := encodeFrame pkt.addr dst c data
    if rb.free < frame.length then (rb, .ERRMEM)
    else ({ rb with buf := rb.buf ++ frame }, .OK)

/-- Bounded channel (`async_channel::bounded` used by `src/lib.rs`): FIFO
queue of byte chunks, a capacity, and whether the counterpart endpoint has
been dropped. -/
structure Channel where
  cap : Nat
  queue : List (List Nat)
  closed : Bool
deriving DecidableEq, Repr

/-- Result of `try_send` on a bounded channel. -/
inductive SendRes where
  | ok
  | full
  | closed
deriving DecidableEq, Repr

/-- `try_send`: refuse when closed or full, otherwise append the chunk. -/
def Channel.try_send (ch : Channel) (msg : List Nat) : Channel × SendRes :=
  if ch.closed then (ch, .closed)
  else if ch.cap ≤ ch.queue.length then (ch, .full)
  else ({ ch with queue := ch.queue ++ [msg] }, .ok)

/-- Result of `try_recv` on a bounded channel. -/
inductive RecvRes where
  | ok (msg : List Nat)
  | empty
  | closed
deriving DecidableEq, Repr

/-- `try_recv`: pop the oldest chunk; an empty queue reports `closed` when
the counterpart is gone, otherwise `empty`. -/
def Channel.try_recv (ch : Channel) : Channel × RecvRes :=
  match ch.queue with
  | [] => (ch, if ch.closed then .closed else .empty)
  | msg :: rest => ({ ch with queue := rest }, .ok msg)

/-- Combined state of one codec (`LwPkt`) and its raw endpoint (`LwPktRaw`):
the codec state, its two RingBuffers, the two bounded channels created by
`LwPkt::new`, and the `last_read` spill buffer of `LwPktRaw`. -/
structure SysState where
  lwpkt : Lwpkt
  read_buffer : LwRb
  write_buffer : LwRb
  to_raw : Channel
  to_pkt : Channel
  last_read : List Nat
deriving DecidableEq, Repr

/-- `LwPkt::new`: fresh codec over caller-supplied RingBuffers, channels of
capacity 64, nothing buffered (`src/lib.rs` lines 100–130). -/
def mkSystem (rxCap txCap : Nat) : SysState :=
  { lwpkt := { addr := 0, state := .idle, m := ⟨0, 0, 0, []⟩ }
    read_buffer := ⟨rxCap, []⟩
    write_buffer := ⟨txCap, []⟩
    to_raw := ⟨64, [], false⟩
    to_pkt := ⟨64, [], false⟩
    last_read := [] }

/-- `LwPkt::set_addres` (`src/lib.rs` line 132): record the local address. -/
def LwPkt.set_addres (s : SysState) (a : Nat) : SysState :=
  { s with lwpkt := { s.lwpkt with addr := a } }

/-- Result of `LwPkt::write`. -/
inductive WriteRes where
  | ok
  | failed (e : WErr)
deriving DecidableEq, Repr

/-- Drain loop of `LwPkt::write` (`src/lib.rs` lines 151–170): repeatedly
read up to 1024 bytes from the outbound RingBuffer and push the chunk onto
the outbound channel; stop on an empty read; a full channel aborts with
`ErrorMem`, a closed one with `ErrorClosedRaw`. The fuel `rb.buf.length + 1`
always suffices because every iteration drains at least one byte. -/
def drainGo : Nat → LwRb → Channel → LwRb × Channel × WriteRes
  | 0, rb, ch => (rb, ch, .ok)
  | fuel + 1, rb, ch =>
    match lwrb_read rb 1024 with
    | (rb2, chunk) =>
      if chunk = [] then (rb, ch, .ok)
      else
        match ch.try_send chunk with
        | (ch2, .ok) => drainGo fuel rb2 ch2
        | (_, .full) => (rb2, ch, .failed .ErrorMem)
        | (_, .closed) => (rb2, ch, .failed .ErrorClosedRaw)

/-- `LwPkt::write` (`src/lib.rs` lines 138–173): serialize through
`lwpkt_write`, then drain the outbound RingBuffer into the outbound
channel. The caller-supplied `from` field of the `Package` is never used. -/
def LwPkt.write (s : SysState) (p : Package) : SysState × WriteRes :=
  match lwpkt_write s.lwpkt s.write_buffer p.to_ p.cmd p.data with
  | (wb, .OK) =>
    match drainGo (wb.buf.length + 1) wb s.to_raw with
    | (wb2, ch2, r) => ({ s with write_buffer := wb2, to_raw := ch2 }, r)
  | (wb, code) => ({ s with write_buffer := wb }, .failed (errOf code))

/-- Result of `LwPkt::read`. -/
inductive ReadRes where
  | ok (pkgs : List Package)
  | failed (e : WErr)
deriving DecidableEq, Repr

/-- Inner loop of `LwPkt::read` (`src/lib.rs` lines 180–208): while the
chunk is not fully stored, write what fits into the inbound RingBuffer, run
`lwpkt_read`, collect a packet on `VALID`, ignore `WAITDATA`/`INPROG`,
abort on any other status, and advance by the number of bytes stored. The
loop genuinely diverges when the RingBuffer can never accept a byte, so it
is fuel-indexed; `none` models non-termination. -/
def chunkLoop : Nat → Lwpkt → LwRb → List Nat → Nat → List Package →
    Option (Lwpkt × LwRb × (List Package ⊕ WErr))
  | 0, _, _, _, _, _ => none
  | fuel + 1, pkt, rb, chunk, from_, acc =>
    if from_ < chunk.length then
      match lwrb_write rb (chunk.drop from_) with
      | (rb1, res) =>
        match lwpkt_read pkt rb1 with
        | (pkt1, rb2, .VALID) =>
          chunkLoop fuel pkt1 rb2 chunk (from_ + res)
            (acc ++ [⟨pkt1.m.cmd, pkt1.m.from_, pkt1.m.to_, pkt1.m.data⟩])
        | (pkt1, rb2, .WAITDATA) => chunkLoop fuel pkt1 rb2 chunk (from_ + res) acc
        | (pkt1, rb2, .INPROG) => chunkLoop fuel pkt1 rb2 chunk (from_ + res) acc
        | (pkt1, rb2, e) => some (pkt1, rb2, .inr (errOf e))
    else some (pkt, rb, .inl acc)

/-- Fuel that suffices for `chunkLoop` whenever the inbound RingBuffer has
positive capacity (each iteration strictly decreases
`2 * (chunk.length - from_) + rb.buf.length`). -/
def chunkFuel (chunk : List Nat) (rb : LwRb) : Nat :=
  2 * chunk.length + rb.buf.length + rb.cap + 2

/-- Outer loop of `LwPkt::read` over the chunks of the inbound channel
(`src/lib.rs` lines 177–217), with the channel queue passed explicitly. -/
def readChunks : List (List Nat) → Lwpkt → LwRb → List Package →
    Option (Lwpkt × LwRb × List (List Nat) × (List Package ⊕ WErr))
  | [], pkt, rb, acc => some (pkt, rb, [], .inl acc)
  | chunk :: rest, pkt, rb, acc =>
    match chunkLoop (chunkFuel chunk rb) pkt rb chunk 0 acc with
    | none => none
    | some (pkt1, rb1, .inr e) => some (pkt1, rb1, rest, .inr e)
    | some (pkt1, rb1, .inl acc1) => readChunks rest pkt1 rb1 acc1

/-- `LwPkt::read` (`src/lib.rs` lines 175–220): drain the inbound channel
chunk by chunk through the inner loop; collect decoded packets; an error
status aborts with that error; when the queue empties, a closed channel
yields `ErrorClosedRaw`, otherwise the collected packets. `none` models a
diverging run of the source loop. -/
def LwPkt.read (s : SysState) : Option (SysState × ReadRes) :=
  match readChunks s.to_pkt.queue s.lwpkt s.read_buffer [] with
  | none => none
  | some (pkt1, rb1, restQ, .inr e) =>
    some ({ s with
              lwpkt := pkt1
              read_buffer := rb1
              to_pkt := { s.to_pkt with queue := restQ } }, .failed e)
  | some (pkt1, rb1, restQ, .inl acc) =>
    if s.to_pkt.closed then
      some ({ s with
                lwpkt := pkt1
                read_buffer := rb1
                to_pkt := { s.to_pkt with queue := restQ } }, .failed .ErrorClosedRaw)
    else
      some ({ s with
                lwpkt := pkt1
                read_buffer := rb1
                to_pkt := { s.to_pkt with queue := restQ } }, .ok acc)

/-- `get_data` accessor (`src/lib.rs` lines 222–225). -/
def LwPkt.get_data (s : SysState) : List Nat := s.lwpkt.m.data

/-- `get_cmd` accessor (`src/lib.rs` lines 227–229). -/
def LwPkt.get_cmd (s : SysState) : Nat := s.lwpkt.m.cmd

/-- `get_from` accessor (`src/lib.rs` lines 231–233). -/
def LwPkt.get_from (s : SysState) : Nat := s.lwpkt.m.from_

/-- `get_to` accessor (`src/lib.rs` lines 235–237). -/
def LwPkt.get_to (s : SysState) : Nat := s.lwpkt.m.to_

/-- Result of `LwPktRaw`'s `std::io::Read::read`. -/
inductive RawRes where
  | ok (out : List Nat)
  | brokenPipe
deriving DecidableEq, Repr

/-- Chunk loop of `<LwPktRaw as std::io::Read>::read` (`src/lib.rs` lines
276–306): pop chunks, copying into the remaining room of the caller's
buffer (`n` is the buffer length, `acc` the bytes copied so far); a chunk
larger than the room spills its tail into `last_read`; an exactly fitting
chunk finishes; an empty queue returns what was copied, or a broken-pipe
error when the counterpart is gone. Returns the remaining queue, the new
`last_read`, and the result. -/
def rawReadGo (cl : Bool) (n : Nat) :
    List (List Nat) → List Nat → List (List Nat) × List Nat × RawRes
  | [], acc => ([], [], if cl then .brokenPipe else .ok acc)
  | src :: rest, acc =>
    let room := n - acc.length
    if room < src.length then (rest, src.drop room, .ok (acc ++ src.take room))
    else if room = src.length then (rest, [], .ok (acc ++ src))
    else rawReadGo cl n rest (acc ++ src)

/-- `<LwPktRaw as std::io::Read>::read` (`src/lib.rs` lines 253–310): serve
from `last_read` first — a large spill satisfies the call by itself — then
fall through to the chunk loop. `n` is the caller's buffer length; the
returned byte list is what the source writes into the buffer prefix. -/
def LwPktRaw.read (s : SysState) (n : Nat) : SysState × RawRes :=
  if s.last_read = [] then
    match rawReadGo s.to_raw.closed n s.to_raw.queue [] with
    | (q2, lr2, r) =>
      ({ s with last_read := lr2, to_raw := { s.to_raw with queue := q2 } }, r)
  else
    if n < s.last_read.length then
      ({ s with last_read := s.last_read.drop n }, .ok (s.last_read.take n))
    else if n = s.last_read.length then
      ({ s with last_read := [] }, .ok s.last_read)
    else
      match rawReadGo s.to_raw.closed n s.to_raw.queue s.last_read with
      | (q2, lr2, r) =>
        ({ s with last_read := lr2, to_raw := { s.to_raw with queue := q2 } }, r)

/-- Result of `LwPktRaw`'s `std::io::Write::write`: the accepted byte count
or a broken-pipe error. -/
inductive RawWRes where
  | ok (count : Nat)
  | brokenPipe
deriving DecidableEq, Repr

/-- `<LwPktRaw as std::io::Write>::write` (`src/lib.rs` lines 313–322):
push the whole buffer as one chunk; a full channel accepts zero bytes, a
closed one errors. -/
def LwPktRaw.write (s : SysState) (bytes : List Nat) : SysState × RawWRes :=
  match s.to_pkt.try_send bytes with
  | (ch2, .ok) => ({ s with to_pkt := ch2 }, .ok bytes.length)
  | (_, .full) => (s, .ok 0)
  | (_, .closed) => (s, .brokenPipe)

/-- Bytes available on the raw endpoint: the spill buffer followed by the
queued chunks in order. -/
def rawPending (s : SysState) : List Nat := s.last_read ++ s.to_raw.queue.flatten

/-- Repeated reads on the raw endpoint with the given buffer sizes,
collecting the byte runs returned; stops early on a broken pipe. -/
def rawReadMany (s : SysState) : List Nat → SysState × List (List Nat)
  | [] => (s, [])
  | n :: ns =>
    match LwPktRaw.read s n with
    | (s2, .ok out) =>
      match rawReadMany s2 ns with
      | (s3, outs) => (s3, out :: outs)
    | (s2, .brokenPipe) => (s2, [])

/-- `n` consecutive calls to `LwPkt::write` with the same packet, all of
which must succeed. -/
def iterWrite (p : Package) : Nat → SysState → Option SysState
  | 0, s => some s
  | n + 1, s =>
    match iterWrite p n s with
    | some s2 =>
      match LwPkt.write s2 p with
      | (s3, .ok) => some s3
      | _ => none
    | none => none

/-- A sequence of external writes (`LwPktRaw::write`), one chunk each. -/
def pushAll : List (List Nat) → SysState → SysState
  | [], s => s
  | chunk :: rest, s => pushAll rest (LwPktRaw.write s chunk).1

/-- The full bridge round trip of the repository's `init_test`: set the
local address, `write` the packet, transfer everything available on the raw
endpoint back in through the external stream, then `read`. -/
def roundTrip (a pfrom dst c : Nat) (d : List Nat) : Option ReadRes :=
  let s0 := LwPkt.set_addres (mkSystem 1024 1024) a
  match LwPkt.write s0 ⟨c, pfrom, dst, d⟩ with
  | (s1, .ok) =>
    match LwPktRaw.read s1 1024 with
    | (s2, .ok out) =>
      match LwPktRaw.write s2 out with
      | (s3, .ok _) => (LwPkt.read s3).map Prod.snd
      | _ => none
    | _ => none
  | _ => none

/-- Payload of the repository's `init_test` (`b"some hello"`). -/
def testData : List Nat := [115, 111, 109, 101, 32, 104, 101, 108, 108, 111]

/-- The valid frame of the `init_test` packet, local address `0x12`. -/
def fr1 : List Nat := encodeFrame 0x12 0x11 0x85 testData

/-- A second, independent valid frame following the corrupted one. -/
def fr2 : List Nat := encodeFrame 1 2 4 [9]

/-- `fr1` with bit `k` of byte `9 + i` flipped: index 0–9 hits the payload,
index 10 the checksum byte. -/
def flipBit (i k : Nat) : List Nat :=
  fr1.set (9 + i) (Nat.xor (fr1.getD (9 + i) 0) (2 ^ k))

/-- A short valid frame used by the discard scenario. -/
def fr91 : List Nat := encodeFrame 1 2 3 [7]

/-- A twelve-byte frame with one corrupted payload byte. -/
def corr9 : List Nat := (encodeFrame 9 8 7 [6]).set 9 99

/-- Discard scenario: a sixteen-byte inbound RingBuffer, one chunk holding a
valid frame, then one chunk holding a corrupted frame followed by a second
valid frame that does not fit in the RingBuffer alongside it. -/
def s9pre : SysState :=
  { mkSystem 16 1024 with to_pkt := ⟨64, [fr91, corr9 ++ fr2], false⟩ }

/-- State after the failing `read` of the discard scenario: the decoder is
idle again, only the corrupted frame's stop byte and the four bytes of `fr2`
that fit in the RingBuffer remain buffered, and everything else is gone. -/
def s9post : SysState :=
  { lwpkt := { addr := 0, state := .idle, m := ⟨3, 1, 2, [7]⟩ }
    read_buffer := ⟨16, [0x55, 0xAA, 1, 2, 4]⟩
    write_buffer := ⟨1024, []⟩
    to_raw := ⟨64, [], false⟩
    to_pkt := ⟨64, [], false⟩
    last_read := [] }

/-- Backpressure scenario: a fresh codec with local address 1. -/
def c2sys : SysState := LwPkt.set_addres (mkSystem 1024 1024) 1

/-- The packet written 64 times in the backpressure scenario. -/
def c2pkgA : Package := ⟨3, 0, 2, [7]⟩

/-- The packet of the failing 65th write. -/
def c2pkgB : Package := ⟨4, 0, 2, [9]⟩

/-- The state after 64 undrained writes: the outbound channel holds 64
complete frames and the outbound RingBuffer is empty. -/
def c2full : SysState :=
  { c2sys with to_raw := ⟨64, List.replicate 64 (encodeFrame 1 2 3 [7]), false⟩ }

/-- A 64-byte payload, making a 75-byte frame for the chunk-split scenario. -/
def bigd : List Nat := List.replicate 64 1

/-- The 75-byte frame of the chunk-split scenario. -/
def bigFrame : List Nat := encodeFrame 1 2 3 bigd

/-- Divergence scenario: a zero-capacity inbound RingBuffer and one
nonempty inbound chunk. -/
def s10 : SysState := { mkSystem 0 1024 with to_pkt := ⟨64, [[7]], false⟩ }

/-- Batch scenario: two complete frames inside one single chunk. -/
def s3two : SysState :=
  { mkSystem 1024 1024 with to_pkt := ⟨64, [fr91 ++ fr2], false⟩ }

/-- Batch scenario: one whole frame and the first five bytes of a second
frame, one chunk each. -/
def s3part : SysState :=
  { mkSystem 1024 1024 with to_pkt := ⟨64, [fr91, fr2.take 5], false⟩ }

/-- State after reading `s3part`: one Packet decoded, the partial frame's
bytes absorbed into the decoder state. -/
def s3mid : SysState :=
  match LwPkt.read s3part with
  | some (s, _) => s
  | none => s3part

/-- Round-trip states of the `init_test` scenario, step by step. -/
def rt0 : SysState := LwPkt.set_addres (mkSystem 1024 1024) 0x12

def rt1 : SysState := (LwPkt.write rt0 ⟨0x85, 0, 0x11, testData⟩).1

def rt2 : SysState × RawRes := LwPktRaw.read rt1 1024

def rt3 : SysState :=
  (LwPktRaw.write rt2.1 (match rt2.2 with | .ok o => o | .brokenPipe => [])).1

/-- The state after the decoded round trip: the packet has been read and no
inbound bytes remain. -/
def rt4 : SysState :=
  match LwPkt.read rt3 with
  | some (s, _) => s
  | none => rt3

/-- One encoded frame is eleven bytes of framing plus the payload. -/
theorem encodeFrame_length (a dst c : Nat) (d : List Nat) :
    (encodeFrame a dst c d).length = 11 + d.length := by
  simp [encodeFrame, byte4, byte2]
  omega

/-- The decode step only fails with a checksum or terminator error. -/
theorem stepByte_fail {st : DState} {b : Nat} {e : Lwpktr}
    (h : stepByte st b = .fail e) : e = .ERRCRC ∨ e = .ERRSTOP := by
  cases st <;> simp [stepByte] at h <;> split at h <;> simp_all

/-- The decode loop never grows the unconsumed remainder beyond the tail of
its input. -/
theorem readGo_rest_length (st : DState) (xs : List Nat) :
    (readGo st xs).2.1.length ≤ xs.length - 1 := by
  induction xs generalizing st with
  | nil => simp [readGo]
  | cons b rest ih =>
    simp only [readGo, List.length_cons]
    cases stepByte st b with
    | cont st2 =>
      have := ih st2
      dsimp only
      omega
    | fail e => simp
    | valid p => simp

/-- If the decode loop consumes `xs` completely without a terminal outcome,
appending further input continues from the reached state. -/
theorem readGo_append {st σ : DState} {xs : List Nat}
    (h : readGo st xs = (σ, [], nonterm σ, none)) (z : List Nat) :
    readGo st (xs ++ z) = readGo σ z := by
  induction xs generalizing st with
  | nil =>
    have hst : st = σ := congrArg Prod.fst h
    subst hst
    simp
  | cons b rest ih =>
    simp only [readGo, List.cons_append] at h ⊢
    cases hs : stepByte st b with
    | cont st2 =>
      rw [hs] at h
      exact ih h
    | fail e =>
      rw [hs] at h
      have he := stepByte_fail hs
      have h1 : DState.idle = σ := congrArg Prod.fst h
      have h2 : e = nonterm σ := congrArg (fun x => x.2.2.1) h
      rw [← h1] at h2
      simp only [nonterm] at h2
      rcases he with h3 | h3 <;> rw [h3] at h2 <;> exact absurd h2 (by simp)
    | valid p =>
      rw [hs] at h
      have h1 : (some p : Option Package) = none := congrArg (fun x => x.2.2.2) h
      simp at h1

/-- A run of the decoder that consumes every prefix of `xs` without reaching
a terminal outcome, ending in state `σ`. -/
def SafeSeg (st : DState) (xs : List Nat) (σ : DState) : Prop :=
  ∀ p s, p ++ s = xs → ∃ μ, readGo st p = (μ, [], nonterm μ, none) ∧ (s = [] → μ = σ)

theorem safeSeg_nil (st : DState) : SafeSeg st [] st := by
  intro p s hp
  obtain ⟨rfl, rfl⟩ := List.append_eq_nil.mp hp
  exact ⟨st, by simp [readGo], fun _ => rfl⟩

theorem safeSeg_single {st : DState} {b : Nat} {σ : DState}
    (h : stepByte st b = .cont σ) : SafeSeg st [b] σ := by
  intro p s hp
  rcases p with _ | ⟨x, p⟩
  · refine ⟨st, by simp [readGo], fun hs => ?_⟩
    rw [hs] at hp
    simp at hp
  · rw [List.cons_append] at hp
    have hx : x = b := (List.cons.injEq .. ▸ hp).1
    have hps : p ++ s = [] := (List.cons.injEq .. ▸ hp).2
    obtain ⟨rfl, rfl⟩ := List.append_eq_nil.mp hps
    subst hx
    exact ⟨σ, by simp [readGo, h], fun _ => rfl⟩

theorem safeSeg_append {st : DState} {xs ys : List Nat} {σ τ : DState}
    (h1 : SafeSeg st xs σ) (h2 : SafeSeg σ ys τ) : SafeSeg st (xs ++ ys) τ := by
  intro p s hp
  rcases List.append_eq_append_iff.mp hp with ⟨a, ha1, ha2⟩ | ⟨c, hc1, hc2⟩
  · -- xs = p ++ a and s = a ++ ys
    obtain ⟨μ, hμ1, hμ2⟩ := h1 p a ha1.symm
    refine ⟨μ, hμ1, fun hs => ?_⟩
    rw [ha2] at hs
    obtain ⟨rfl, rfl⟩ := List.append_eq_nil.mp hs
    obtain ⟨μ2, hμ3, hμ4⟩ := h2 [] [] rfl
    have hμ2σ : μ2 = σ := (congrArg Prod.fst hμ3).symm
    rw [hμ2 rfl, ← hμ2σ, hμ4 rfl]
  · -- p = xs ++ c and ys = c ++ s
    obtain ⟨μ, hμ1, hμ2⟩ := h1 xs [] (by simp)
    rw [hμ2 rfl] at hμ1
    obtain ⟨ν, hν1, hν2⟩ := h2 c s hc2.symm
    subst hc1
    exact ⟨ν, by rw [readGo_append hμ1 c]; exact hν1, hν2⟩

/-- Chain one continuing byte in front of a safe run. -/
theorem safeSeg_cons {st σ τ : DState} {b : Nat} {ys : List Nat}
    (h : stepByte st b = .cont σ) (h2 : SafeSeg σ ys τ) :
    SafeSeg st (b :: ys) τ :=
  safeSeg_append (safeSeg_single h) h2

/-- The four little-endian command bytes reassemble the command id. -/
theorem byte4_reassemble {c : Nat} (hc : c < 4294967296) :
    c % 256 + 256 * (c / 256 % 256) + 65536 * (c / 65536 % 256)
      + 16777216 * (c / 16777216 % 256) = c := by
  omega

/-- The two little-endian length bytes reassemble the payload length. -/
theorem byte2_reassemble {n : Nat} (hn : n < 65536) :
    n % 256 + 256 * (n / 256 % 256) = n := by
  omega

/-- Consuming the payload bytes accumulates them and moves to the checksum
state once the announced length is reached. -/
theorem safeSeg_data (f t c L : Nat) :
    ∀ ds acc : List Nat, ds ≠ [] → acc.length + ds.length = L →
      SafeSeg (.sData f t c L acc) ds (.sCrc f t c (acc ++ ds)) := by
  intro ds
  induction ds with
  | nil => intro acc h; exact absurd rfl h
  | cons d ds ih =>
    intro acc _ hlen
    rcases ds with _ | ⟨d2, ds2⟩
    · have hL : L ≤ acc.length + 1 := by simp at hlen; omega
      have hstep : stepByte (.sData f t c L acc) d = .cont (.sCrc f t c (acc ++ [d])) := by
        simp [stepByte, hL]
      exact safeSeg_single hstep
    · have hlt : ¬ (L ≤ acc.length + 1) := by
        simp [List.length_cons] at hlen
        omega
      have hstep : stepByte (.sData f t c L acc) d
          = .cont (.sData f t c L (acc ++ [d])) := by
        simp [stepByte, hlt]
      have ih2 := ih (acc ++ [d]) (by simp) (by simp at hlen ⊢; omega)
      have : acc ++ [d] ++ (d2 :: ds2) = acc ++ (d :: d2 :: ds2) := by simp
      rw [this] at ih2
      exact safeSeg_cons hstep ih2

/-- Every proper prefix of an encoded frame leaves the decoder mid-frame
without a terminal outcome; consuming all but the stop byte reaches the
stop state carrying the decoded fields. -/
theorem safeSeg_frameInit (a t c : Nat) (d : List Nat)
    (hc : c < 4294967296) (hd : d.length < 65536) :
    SafeSeg .idle
      ([LWPKT_START, a, t] ++ byte4 c ++ byte2 d.length ++ d ++ [crcOf a t c d])
      (.sStop a t c d) := by
  have h0 : stepByte .idle LWPKT_START = .cont .sFrom := by simp [stepByte]
  have h1 : stepByte .sFrom a = .cont (.sTo a) := by simp [stepByte]
  have h2 : stepByte (.sTo a) t = .cont (.sCmd0 a t) := by simp [stepByte]
  have h3 : stepByte (.sCmd0 a t) (c % 256) = .cont (.sCmd1 a t (c % 256)) := by
    simp [stepByte]
  have h4 : stepByte (.sCmd1 a t (c % 256)) (c / 256 % 256)
      = .cont (.sCmd2 a t (c % 256) (c / 256 % 256)) := by simp [stepByte]
  have h5 : stepByte (.sCmd2 a t (c % 256) (c / 256 % 256)) (c / 65536 % 256)
      = .cont (.sCmd3 a t (c % 256) (c / 256 % 256) (c / 65536 % 256)) := by
    simp [stepByte]
  have h6 : stepByte (.sCmd3 a t (c % 256) (c / 256 % 256) (c / 65536 % 256))
      (c / 16777216 % 256) = .cont (.sLen0 a t c) := by
    simp only [stepByte, StepRes.cont.injEq]
    rw [byte4_reassemble hc]
  have h7 : stepByte (.sLen0 a t c) (d.length % 256)
      = .cont (.sLen1 a t c (d.length % 256)) := by simp [stepByte]
  have hcrc : stepByte (.sCrc a t c d) (crcOf a t c d) = .cont (.sStop a t c d) := by
    simp [stepByte]
  rcases hdd : d with _ | ⟨x, xs⟩
  · -- empty payload: the length bytes go straight to the checksum state
    have h8 : stepByte (.sLen1 a t c 0) 0 = .cont (.sCrc a t c []) := by
      simp [stepByte]
    subst hdd
    simp only [byte4, byte2, List.length_nil, Nat.zero_mod, Nat.zero_div,
      List.append_nil]
    refine safeSeg_cons h0 (safeSeg_cons h1 (safeSeg_cons h2 (safeSeg_cons h3
      (safeSeg_cons h4 (safeSeg_cons h5 (safeSeg_cons h6 (safeSeg_cons h7
      (safeSeg_cons ?_ (safeSeg_single hcrc)))))))))
    simpa using h8
  · -- nonempty payload: length bytes enter the data state, then the payload
    rw [← hdd]
    have hdne : d ≠ [] := by rw [hdd]; simp
    have hlen0 : d.length ≠ 0 := by simp [hdd]
    have h8 : stepByte (.sLen1 a t c (d.length % 256)) (d.length / 256 % 256)
        = .cont (.sData a t c d.length []) := by
      simp only [stepByte, byte2_reassemble hd, StepRes.cont.injEq]
      simp [hlen0]
    have hdata := safeSeg_data a t c d.length d [] hdne (by simp)
    simp only [List.nil_append] at hdata
    simp only [byte4, byte2]
    refine safeSeg_cons h0 (safeSeg_cons h1 (safeSeg_cons h2 (safeSeg_cons h3
      (safeSeg_cons h4 (safeSeg_cons h5 (safeSeg_cons h6 (safeSeg_cons h7
      (safeSeg_cons h8 (safeSeg_append hdata (safeSeg_single hcrc))))))))))

/-- Decoding a well-formed frame from the idle state consumes exactly the
frame, reports `VALID`, and yields the packet carried by the frame; any
following bytes are left unconsumed. -/
theorem readGo_frame (a t c : Nat) (d : List Nat) (rest : List Nat)
    (hc : c < 4294967296) (hd : d.length < 65536) :
    readGo .idle (encodeFrame a t c d ++ rest)
      = (.idle, rest, .VALID, some ⟨c, a, t, d⟩) := by
  have hsafe := safeSeg_frameInit a t c d hc hd
  obtain ⟨μ, hμ1, hμ2⟩ := hsafe
    ([LWPKT_START, a, t] ++ byte4 c ++ byte2 d.length ++ d ++ [crcOf a t c d])
    [] (by simp)
  rw [hμ2 rfl] at hμ1
  have hsplit : encodeFrame a t c d ++ rest
      = ([LWPKT_START, a, t] ++ byte4 c ++ byte2 d.length ++ d ++ [crcOf a t c d])
        ++ (LWPKT_STOP :: rest) := by
    simp [encodeFrame]
  rw [hsplit, readGo_append hμ1]
  have hstop : stepByte (.sStop a t c d) LWPKT_STOP = .valid ⟨c, a, t, d⟩ := by
    simp [stepByte]
  simp [readGo, hstop]

/-- The decoder's idle/mid-frame report is one of the two non-error codes. -/
theorem nonterm_cases (σ : DState) :
    nonterm σ = .WAITDATA ∨ nonterm σ = .INPROG := by
  cases σ <;> simp [nonterm]

/-- Writing into an empty RingBuffer with enough capacity stores everything. -/
theorem lwrb_write_all {rb : LwRb} {bytes : List Nat}
    (h : rb.buf = []) (hcap : bytes.length ≤ rb.cap) :
    lwrb_write rb bytes = ({ rb with buf := bytes }, bytes.length) := by
  simp [lwrb_write, LwRb.free, h, Nat.min_eq_right, hcap]

/-- `lwpkt_read` on a nonempty RingBuffer is the decode loop. -/
theorem lwpkt_read_nonempty (pkt : Lwpkt) (rb : LwRb) (h : rb.buf ≠ []) :
    lwpkt_read pkt rb =
      ({ pkt with
           state := (readGo pkt.state rb.buf).1
           m := (readGo pkt.state rb.buf).2.2.2.getD pkt.m },
       { rb with buf := (readGo pkt.state rb.buf).2.1 },
       (readGo pkt.state rb.buf).2.2.1) := by
  rcases rb with ⟨cap, buf⟩
  rcases buf with _ | ⟨x, xs⟩
  · simp at h
  · simp only [lwpkt_read]

/-- An empty chunk makes the inner loop of `LwPkt::read` a no-op. -/
theorem chunkLoop_nil {fuel : Nat} (pkt : Lwpkt) (rb : LwRb) (acc : List Package)
    (h : 1 ≤ fuel) : chunkLoop fuel pkt rb [] 0 acc = some (pkt, rb, .inl acc) := by
  obtain ⟨k, rfl⟩ : ∃ k, fuel = k + 1 := ⟨fuel - 1, by omega⟩
  simp [chunkLoop]

/-- A chunk that the decoder consumes entirely without a terminal outcome is
absorbed in one pass of the inner loop: the RingBuffer is emptied again and
only the decode state advances. -/
theorem chunkLoop_whole_nonterm {fuel : Nat} {pkt : Lwpkt} {rb : LwRb}
    {chunk : List Nat} {acc : List Package} {σ : DState}
    (hfuel : 2 ≤ fuel) (hrb : rb.buf = []) (hcap : chunk.length ≤ rb.cap)
    (hch : chunk ≠ [])
    (hgo : readGo pkt.state chunk = (σ, [], nonterm σ, none)) :
    chunkLoop fuel pkt rb chunk 0 acc
      = some ({ pkt with state := σ }, { rb with buf := [] }, .inl acc) := by
  obtain ⟨k, rfl⟩ : ∃ k, fuel = k + 2 := ⟨fuel - 2, by omega⟩
  have hlen : 0 < chunk.length := List.length_pos.mpr hch
  have hw : lwrb_write rb (chunk.drop 0) = ({ rb with buf := chunk }, chunk.length) := by
    rw [List.drop_zero]; exact lwrb_write_all hrb hcap
  have hr : lwpkt_read pkt { rb with buf := chunk }
      = ({ pkt with state := σ }, { rb with buf := [] }, nonterm σ) := by
    rw [lwpkt_read_nonempty pkt _ (by simpa using hch)]
    simp [hgo]
  show chunkLoop (k + 1 + 1) pkt rb chunk 0 acc = _
  rw [chunkLoop, if_pos hlen, hw]
  dsimp only
  rw [hr]
  rcases nonterm_cases σ with hσ | hσ <;> rw [hσ] <;>
    · show chunkLoop (k + 1) _ _ chunk (0 + chunk.length) acc = _
      rw [chunkLoop]
      simp

/-- A chunk whose final byte completes a frame is absorbed in one pass of
the inner loop, appending the decoded packet. -/
theorem chunkLoop_whole_valid {fuel : Nat} {pkt : Lwpkt} {rb : LwRb}
    {chunk : List Nat} {acc : List Package} {q : Package}
    (hfuel : 2 ≤ fuel) (hrb : rb.buf = []) (hcap : chunk.length ≤ rb.cap)
    (hch : chunk ≠ [])
    (hgo : readGo pkt.state chunk = (.idle, [], .VALID, some q)) :
    chunkLoop fuel pkt rb chunk 0 acc
      = some ({ pkt with state := .idle, m := q }, { rb with buf := [] },
          .inl (acc ++ [q])) := by
  obtain ⟨k, rfl⟩ : ∃ k, fuel = k + 2 := ⟨fuel - 2, by omega⟩
  have hlen : 0 < chunk.length := List.length_pos.mpr hch
  have hw : lwrb_write rb (chunk.drop 0) = ({ rb with buf := chunk }, chunk.length) := by
    rw [List.drop_zero]; exact lwrb_write_all hrb hcap
  have hr : lwpkt_read pkt { rb with buf := chunk }
      = ({ pkt with state := .idle, m := q }, { rb with buf := [] }, .VALID) := by
    rw [lwpkt_read_nonempty pkt _ (by simpa using hch)]
    simp [hgo]
  show chunkLoop (k + 1 + 1) pkt rb chunk 0 acc = _
  rw [chunkLoop, if_pos hlen, hw]
  dsimp only
  rw [hr]
  show chunkLoop (k + 1) _ _ chunk (0 + chunk.length) _ = _
  rw [chunkLoop]
  simp

/-- The per-chunk fuel allows at least two passes of the inner loop. -/
theorem chunkFuel_ge_two (chunk : List Nat) (rb : LwRb) : 2 ≤ chunkFuel chunk rb := by
  simp only [chunkFuel]
  omega

/-- Chunks holding no bytes are drained from the channel without effect. -/
theorem readChunks_empties (chunks : List (List Nat)) (pkt : Lwpkt) (rb : LwRb)
    (acc : List Package) (h : ∀ ch ∈ chunks, ch = []) :
    readChunks chunks pkt rb acc = some (pkt, rb, [], .inl acc) := by
  induction chunks with
  | nil => simp [readChunks]
  | cons ch rest ih =>
    have hch : ch = [] := h ch (by simp)
    subst hch
    rw [readChunks, chunkLoop_nil pkt rb acc (Nat.le_of_succ_le (chunkFuel_ge_two [] rb))]
    exact ih (fun c hc => h c (by simp [hc]))

/-- Feeding the chunks of one encoded frame — however the frame's bytes are
split — through the outer loop of `LwPkt::read` decodes exactly that frame's
packet, leaving the RingBuffer empty and the channel queue drained. `p` is
the already-consumed prefix of the frame, reflected in the decode state. -/
theorem readChunks_frame (a t c : Nat) (d : List Nat)
    (hc : c < 4294967296) (hd : d.length < 65536) :
    ∀ (chunks : List (List Nat)) (p : List Nat) (pkt : Lwpkt) (rb : LwRb)
      (acc : List Package),
      p ++ chunks.flatten = encodeFrame a t c d →
      readGo .idle p = (pkt.state, [], nonterm pkt.state, none) →
      rb.buf = [] → (encodeFrame a t c d).length ≤ rb.cap →
      readChunks chunks pkt rb acc
        = some ({ pkt with state := .idle, m := ⟨c, a, t, d⟩ },
            { rb with buf := [] }, [], .inl (acc ++ [⟨c, a, t, d⟩])) := by
  intro chunks
  induction chunks with
  | nil =>
    intro p pkt rb acc hsplit hp hrb hcap
    simp only [List.flatten_nil, List.append_nil] at hsplit
    subst hsplit
    have hfr := readGo_frame a t c d [] hc hd
    rw [List.append_nil] at hfr
    rw [hfr] at hp
    have : Lwpktr.VALID = nonterm pkt.state := congrArg (fun x => x.2.2.1) hp
    rcases nonterm_cases pkt.state with h2 | h2 <;> rw [h2] at this <;> simp at this
  | cons chunk rest ih =>
    intro p pkt rb acc hsplit hp hrb hcap
    rcases em (chunk = []) with hch | hch
    · subst hch
      rw [readChunks, chunkLoop_nil pkt rb acc (Nat.le_of_succ_le (chunkFuel_ge_two [] rb))]
      exact ih p pkt rb acc (by simpa using hsplit) hp hrb hcap
    · have hchlen : chunk.length ≤ rb.cap := by
        have := congrArg List.length hsplit
        simp at this
        omega
      have hgo2 := readGo_append hp chunk
      rcases em (rest.flatten = []) with hfl | hfl
      · -- this chunk carries the end of the frame
        have hpc : p ++ chunk = encodeFrame a t c d := by
          rw [List.flatten_cons, hfl] at hsplit
          simpa using hsplit
        have hgo3 : readGo pkt.state chunk = (.idle, [], .VALID, some ⟨c, a, t, d⟩) := by
          have hfr := readGo_frame a t c d [] hc hd
          rw [List.append_nil] at hfr
          rw [hpc, hfr] at hgo2
          exact hgo2.symm
        rw [readChunks,
          chunkLoop_whole_valid (chunkFuel_ge_two chunk rb) hrb hchlen hch hgo3]
        exact readChunks_empties rest _ _ _ (List.flatten_eq_nil_iff.mp hfl)
      · -- the frame continues in later chunks
        have hmid : ∃ mid lastb, rest.flatten = mid ++ [lastb] := by
          rcases List.eq_nil_or_concat rest.flatten with h2 | ⟨mid, lastb, h2⟩
          · exact absurd h2 hfl
          · exact ⟨mid, lastb, by simpa [List.concat_eq_append] using h2⟩
        obtain ⟨mid, lastb, hmid⟩ := hmid
        have hframe : encodeFrame a t c d
            = ([LWPKT_START, a, t] ++ byte4 c ++ byte2 d.length ++ d
                ++ [crcOf a t c d]) ++ [LWPKT_STOP] := by
          simp [encodeFrame]
        have hinit : (p ++ chunk ++ mid) ++ [lastb]
            = ([LWPKT_START, a, t] ++ byte4 c ++ byte2 d.length ++ d
                ++ [crcOf a t c d]) ++ [LWPKT_STOP] := by
          rw [← hframe, ← hsplit, List.flatten_cons, hmid]
          simp
        have hlen2 : (p ++ chunk ++ mid).length
            = ([LWPKT_START, a, t] ++ byte4 c ++ byte2 d.length ++ d
                ++ [crcOf a t c d]).length := by
          have h3 := congrArg List.length hinit
          simp only [List.length_append, List.length_cons] at h3 ⊢
          omega
        obtain ⟨hpre, -⟩ := List.append_inj hinit hlen2
        have hsafe := safeSeg_frameInit a t c d hc hd
        obtain ⟨μ, hμ1, -⟩ := hsafe (p ++ chunk) mid (by rw [← hpre])
        have hgo4 : readGo pkt.state chunk = (μ, [], nonterm μ, none) := by
          rw [← hgo2]; exact hμ1
        rw [readChunks,
          chunkLoop_whole_nonterm (chunkFuel_ge_two chunk rb) hrb hchlen hch hgo4]
        have hrec := ih (p ++ chunk) { pkt with state := μ } { rb with buf := [] }
          acc (by rw [← hsplit]; simp) (by simpa using hμ1) rfl (by simpa using hcap)
        simpa using hrec

/-- Wire encoding of a packet as the sender's codec would emit it, with the
packet's own `from` field used as source address (the receiving side of the
claims: any well-formed frame arriving on the inbound channel). -/
def encodePkg (q : Package) : List Nat := encodeFrame q.from_ q.to_ q.cmd q.data

/-- An encoded frame is never empty. -/
theorem encodePkg_ne_nil (q : Package) : encodePkg q ≠ [] := by
  intro h
  have := congrArg List.length h
  rw [encodePkg, encodeFrame_length] at this
  simp at this

/-- Back-to-back well-formed frames, one channel chunk each, are decoded in
arrival order by the outer loop of `LwPkt::read`. -/
theorem readChunks_frames :
    ∀ (l : List Package) (pkt : Lwpkt) (rb : LwRb) (acc : List Package),
      (∀ q ∈ l, q.cmd < 4294967296 ∧ q.data.length < 65536
        ∧ (encodePkg q).length ≤ rb.cap) →
      pkt.state = .idle → rb.buf = [] →
      ∃ pkt2, readChunks (l.map encodePkg) pkt rb acc
          = some (pkt2, { rb with buf := [] }, [], .inl (acc ++ l))
        ∧ pkt2.addr = pkt.addr := by
  intro l
  induction l with
  | nil =>
    intro pkt rb acc _ _ hrb
    refine ⟨pkt, ?_, rfl⟩
    rcases rb with ⟨cap, buf⟩
    simp at hrb
    subst hrb
    simp [readChunks]
  | cons q l ih =>
    intro pkt rb acc hq hst hrb
    obtain ⟨hc, hd, hcap⟩ := hq q (by simp)
    have hgo : readGo pkt.state (encodePkg q)
        = (.idle, [], .VALID, some q) := by
      rw [hst, encodePkg, ← List.append_nil (encodeFrame q.from_ q.to_ q.cmd q.data),
        readGo_frame q.from_ q.to_ q.cmd q.data [] hc hd]
    rw [List.map_cons, readChunks,
      chunkLoop_whole_valid (chunkFuel_ge_two _ rb) hrb hcap (encodePkg_ne_nil q) hgo]
    obtain ⟨pkt2, hrec, haddr⟩ := ih { pkt with state := .idle, m := q }
      { rb with buf := [] } (acc ++ [q])
      (fun r hr => by
        obtain ⟨h1, h2, h3⟩ := hq r (by simp [hr])
        exact ⟨h1, h2, by simpa using h3⟩)
      rfl rfl
    refine ⟨pkt2, ?_, by simpa using haddr⟩
    dsimp only
    rw [hrec]
    simp

/-- `lwpkt_read` on an empty RingBuffer just reports `WAITDATA`. -/
theorem lwpkt_read_empty (pkt : Lwpkt) (rb : LwRb) (h : rb.buf = []) :
    lwpkt_read pkt rb = (pkt, rb, .WAITDATA) := by
  rcases rb with ⟨cap, buf⟩
  simp only at h
  subst h
  rfl

/-- `lwpkt_read` never changes the RingBuffer capacity. -/
theorem lwpkt_read_cap (pkt : Lwpkt) (rb : LwRb) :
    (lwpkt_read pkt rb).2.1.cap = rb.cap := by
  rcases h : rb.buf with _ | ⟨x, xs⟩
  · rw [lwpkt_read_empty pkt rb h]
  · rw [lwpkt_read_nonempty pkt rb (by simp [h])]

/-- With a RingBuffer of positive capacity, the inner loop of `LwPkt::read`
always terminates: the fuel bound
`2 * (chunk.length - from_) + rb.buf.length` suffices because every
iteration either stores fresh bytes or consumes buffered ones. -/
theorem chunkLoop_isSome :
    ∀ (fuel : Nat) (pkt : Lwpkt) (rb : LwRb) (chunk : List Nat) (from_ : Nat)
      (acc : List Package), 1 ≤ rb.cap →
      2 * (chunk.length - from_) + rb.buf.length < fuel →
      (chunkLoop fuel pkt rb chunk from_ acc).isSome := by
  intro fuel
  induction fuel with
  | zero => intro _ _ _ _ _ _ hm; omega
  | succ f ih =>
    intro pkt rb chunk from_ acc hcap hm
    rw [chunkLoop]
    by_cases hlt : from_ < chunk.length
    · rw [if_pos hlt]
      have hdroplen : (chunk.drop from_).length = chunk.length - from_ :=
        List.length_drop ..
      have hw : lwrb_write rb (chunk.drop from_)
          = ({ rb with buf := rb.buf
                ++ (chunk.drop from_).take (min rb.free (chunk.drop from_).length) },
             min rb.free (chunk.drop from_).length) := rfl
      rw [hw]
      dsimp only
      have hresle : min rb.free (chunk.drop from_).length ≤ chunk.length - from_ := by
        rw [hdroplen] at *
        omega
      have hlen1 : (rb.buf
          ++ (chunk.drop from_).take (min rb.free (chunk.drop from_).length)).length
          = rb.buf.length + min rb.free (chunk.drop from_).length := by
        rw [List.length_append, List.length_take]
        omega
      have hne : rb.buf
          ++ (chunk.drop from_).take (min rb.free (chunk.drop from_).length) ≠ [] := by
        intro hcontra
        have h2 := congrArg List.length hcontra
        rw [hlen1] at h2
        simp only [List.length_nil] at h2
        have hfree : rb.free = rb.cap - rb.buf.length := rfl
        rw [hdroplen] at h2
        omega
      rw [lwpkt_read_nonempty _ _ hne]
      rcases hgo : readGo pkt.state (rb.buf
          ++ (chunk.drop from_).take (min rb.free (chunk.drop from_).length))
        with ⟨st2, rest, code, p?⟩
      dsimp only
      have hshrink := readGo_rest_length pkt.state
        (rb.buf ++ (chunk.drop from_).take (min rb.free (chunk.drop from_).length))
      rw [hgo, hlen1] at hshrink
      dsimp only at hshrink
      have hge1 : 1 ≤ rb.buf.length + min rb.free (chunk.drop from_).length := by
        rcases Nat.eq_zero_or_pos
          (rb.buf.length + min rb.free (chunk.drop from_).length) with h0 | h0
        · exfalso
          apply hne
          have h3 : (rb.buf ++ (chunk.drop from_).take
              (min rb.free (chunk.drop from_).length)).length = 0 := by
            rw [hlen1]; omega
          exact List.eq_nil_of_length_eq_zero h3
        · omega
      have hmeasure : 2 * (chunk.length
            - (from_ + min rb.free (chunk.drop from_).length)) + rest.length < f := by
        omega
      cases code <;> simp only [Option.isSome_some] <;>
        exact ih _ _ chunk _ _ hcap hmeasure
    · rw [if_neg hlt]
      simp

/-- The inner loop never changes the RingBuffer capacity. -/
theorem chunkLoop_cap :
    ∀ (fuel : Nat) (pkt : Lwpkt) (rb : LwRb) (chunk : List Nat) (from_ : Nat)
      (acc : List Package) (pkt2 : Lwpkt) (rb2 : LwRb) (r : List Package ⊕ WErr),
      chunkLoop fuel pkt rb chunk from_ acc = some (pkt2, rb2, r) →
      rb2.cap = rb.cap := by
  intro fuel
  induction fuel with
  | zero => intro _ _ _ _ _ _ _ _ h; simp [chunkLoop] at h
  | succ f ih =>
    intro pkt rb chunk from_ acc pkt2 rb2 r h
    rw [chunkLoop] at h
    by_cases hlt : from_ < chunk.length
    · rw [if_pos hlt] at h
      have hw : lwrb_write rb (chunk.drop from_)
          = ({ rb with buf := rb.buf
                ++ (chunk.drop from_).take (min rb.free (chunk.drop from_).length) },
             min rb.free (chunk.drop from_).length) := rfl
      rw [hw] at h
      dsimp only at h
      rcases hbe : rb.buf
          ++ (chunk.drop from_).take (min rb.free (chunk.drop from_).length)
        with _ | ⟨x, xs⟩
      · rw [hbe, lwpkt_read_empty pkt _ rfl] at h
        dsimp only at h
        simpa using ih _ _ _ _ _ _ _ _ h
      · rw [lwpkt_read_nonempty pkt _ (by rw [hbe]; simp)] at h
        rcases hgo : readGo pkt.state (rb.buf
            ++ (chunk.drop from_).take (min rb.free (chunk.drop from_).length))
          with ⟨st2, rest, code, p?⟩
        rw [hgo] at h
        dsimp only at h
        cases code <;>
          first
            | (simpa using ih _ _ _ _ _ _ _ _ h)
            | (simp only [Option.some.injEq, Prod.mk.injEq] at h
               obtain ⟨-, h2, -⟩ := h
               rw [← h2])
    · rw [if_neg hlt] at h
      simp only [Option.some.injEq, Prod.mk.injEq] at h
      obtain ⟨-, h2, -⟩ := h
      rw [← h2]

/-- With a positive-capacity inbound RingBuffer the outer loop of
`LwPkt::read` terminates on every finite channel content. -/
theorem readChunks_isSome :
    ∀ (chunks : List (List Nat)) (pkt : Lwpkt) (rb : LwRb) (acc : List Package),
      1 ≤ rb.cap → (readChunks chunks pkt rb acc).isSome := by
  intro chunks
  induction chunks with
  | nil => intro pkt rb acc _; simp [readChunks]
  | cons chunk rest ih =>
    intro pkt rb acc hcap
    rw [readChunks]
    have h1 := chunkLoop_isSome (chunkFuel chunk rb) pkt rb chunk 0 acc hcap
      (by simp only [chunkFuel]; omega)
    rcases h2 : chunkLoop (chunkFuel chunk rb) pkt rb chunk 0 acc with _ | ⟨pkt1, rb1, r⟩
    · rw [h2] at h1; simp at h1
    · have hcap1 : 1 ≤ rb1.cap := by
        rw [chunkLoop_cap (chunkFuel chunk rb) pkt rb chunk 0 acc pkt1 rb1 r h2]
        exact hcap
      cases r with
      | inl acc1 => exact ih pkt1 rb1 acc1 hcap1
      | inr e => simp

/-- A drained RingBuffer leaves the drain loop immediately. -/
theorem drainGo_empty (fuel : Nat) (rb : LwRb) (ch : Channel) (h : rb.buf = []) :
    drainGo fuel rb ch = (rb, ch, .ok) := by
  cases fuel with
  | zero => rfl
  | succ f => simp [drainGo, lwrb_read, h]

/-- A RingBuffer holding at most 1024 bytes is drained onto the channel as a
single chunk when the channel has room. -/
theorem drainGo_single (fuel : Nat) (rb : LwRb) (ch : Channel)
    (hfuel : 2 ≤ fuel) (hne : rb.buf ≠ []) (hlen : rb.buf.length ≤ 1024)
    (hcl : ch.closed = false) (hq : ch.queue.length < ch.cap) :
    drainGo fuel rb ch
      = ({ rb with buf := [] }, { ch with queue := ch.queue ++ [rb.buf] }, .ok) := by
  obtain ⟨k, rfl⟩ : ∃ k, fuel = k + 2 := ⟨fuel - 2, by omega⟩
  have htake : rb.buf.take 1024 = rb.buf := List.take_of_length_le hlen
  have hdrop : rb.buf.drop 1024 = [] := List.drop_eq_nil_of_le hlen
  show drainGo (k + 1 + 1) rb ch = _
  rw [drainGo]
  simp only [lwrb_read, htake, hdrop]
  rw [if_neg hne]
  have hsend : ch.try_send rb.buf
      = ({ ch with queue := ch.queue ++ [rb.buf] }, .ok) := by
    rw [Channel.try_send, if_neg (by rw [hcl]; simp), if_neg (by omega)]
  rw [hsend]
  exact drainGo_empty _ _ _ rfl

/-- A successful `LwPkt::write` on an empty outbound RingBuffer and a
non-full open channel pushes exactly one chunk holding the whole frame,
stamped with the codec's local address. -/
theorem LwPkt_write_success (s : SysState) (p : Package)
    (hbuf : s.write_buffer.buf = [])
    (hlen : p.data.length ≤ LWPKT_CFG_MAX_DATA_LEN)
    (hfit : 11 + p.data.length ≤ s.write_buffer.cap)
    (hcl : s.to_raw.closed = false)
    (hq : s.to_raw.queue.length < s.to_raw.cap) :
    LwPkt.write s p
      = ({ s with to_raw := { s.to_raw with queue := s.to_raw.queue
            ++ [encodeFrame s.lwpkt.addr p.to_ p.cmd p.data] } }, .ok) := by
  have hframe : (encodeFrame s.lwpkt.addr p.to_ p.cmd p.data).length
      = 11 + p.data.length := encodeFrame_length ..
  have hwr : lwpkt_write s.lwpkt s.write_buffer p.to_ p.cmd p.data
      = ({ s.write_buffer with
            buf := encodeFrame s.lwpkt.addr p.to_ p.cmd p.data }, .OK) := by
    rw [lwpkt_write, if_neg (by omega)]
    have hfree : ¬ s.write_buffer.free
        < (encodeFrame s.lwpkt.addr p.to_ p.cmd p.data).length := by
      have : s.write_buffer.free = s.write_buffer.cap - s.write_buffer.buf.length := rfl
      rw [hframe]
      rw [this, hbuf]
      simp
      omega
    rw [if_neg hfree]
    rw [hbuf]
    simp
  rw [LwPkt.write, hwr]
  dsimp only
  have hdr := drainGo_single
    ((({ s.write_buffer with
          buf := encodeFrame s.lwpkt.addr p.to_ p.cmd p.data } : LwRb)).buf.length + 1)
    { s.write_buffer with buf := encodeFrame s.lwpkt.addr p.to_ p.cmd p.data }
    s.to_raw
    (by simp [hframe]; omega)
    (by
      intro hc
      have := congrArg List.length hc
      simp [hframe] at this)
    (by
      have h2 : p.data.length ≤ 256 := hlen
      simp [hframe]
      omega)
    hcl hq
  rw [hdr]
  dsimp only
  rcases hs : s.write_buffer with ⟨cap, buf⟩
  rw [hs] at hbuf
  simp only at hbuf
  subst hbuf
  rfl

/-- Chunk loop of the raw read on an open channel: it succeeds, conserves
every byte (returned bytes followed by what stays buffered equal what was
buffered), and copies exactly as many bytes as fit. -/
theorem rawReadGo_spec (n : Nat) :
    ∀ (queue : List (List Nat)) (acc : List Nat), acc.length ≤ n →
      ∃ q2 lr2 out, rawReadGo false n queue acc = (q2, lr2, .ok out) ∧
        out ++ lr2 ++ q2.flatten = acc ++ queue.flatten ∧
        out.length = min n (acc.length + queue.flatten.length) := by
  intro queue
  induction queue with
  | nil =>
    intro acc hacc
    refine ⟨[], [], acc, rfl, by simp, by simp; omega⟩
  | cons src rest ih =>
    intro acc hacc
    rw [rawReadGo]
    by_cases h1 : n - acc.length < src.length
    · rw [if_pos h1]
      refine ⟨rest, src.drop (n - acc.length), acc ++ src.take (n - acc.length),
        rfl, ?_, ?_⟩
      · simp only [List.flatten_cons, List.append_assoc]
        rw [← List.append_assoc (src.take (n - acc.length))]
        rw [List.take_append_drop]
      · simp only [List.length_append, List.length_take, List.flatten_cons]
        omega
    · rw [if_neg h1]
      by_cases h2 : n - acc.length = src.length
      · rw [if_pos h2]
        refine ⟨rest, [], acc ++ src, rfl, by simp, ?_⟩
        simp only [List.length_append, List.flatten_cons]
        omega
      · rw [if_neg h2]
        obtain ⟨q2, lr2, out, hgo, hcons, hlen⟩ := ih (acc ++ src)
          (by simp; omega)
        refine ⟨q2, lr2, out, hgo, ?_, ?_⟩
        · rw [hcons]
          simp
        · rw [hlen]
          simp only [List.length_append, List.flatten_cons]
          omega

/-- The raw read on an open channel: success, byte conservation, and an
exact count `min n available`; the channel flag and capacity are untouched. -/
theorem rawRead_spec (s : SysState) (n : Nat) (hcl : s.to_raw.closed = false) :
    ∃ out s2, LwPktRaw.read s n = (s2, .ok out) ∧
      out ++ rawPending s2 = rawPending s ∧
      out.length = min n (rawPending s).length ∧
      s2.to_raw.closed = false ∧
      s2.to_pkt = s.to_pkt ∧ s2.lwpkt = s.lwpkt ∧
      s2.read_buffer = s.read_buffer ∧ s2.write_buffer = s.write_buffer := by
  rw [LwPktRaw.read]
  by_cases hlr : s.last_read = []
  · rw [if_pos hlr]
    obtain ⟨q2, lr2, out, hgo, hcons, hlen⟩ := rawReadGo_spec n s.to_raw.queue []
      (by simp)
    rw [hcl, hgo]
    dsimp only
    refine ⟨out, _, rfl, ?_, ?_, hcl, rfl, rfl, rfl, rfl⟩
    · simp only [rawPending, hlr] at *
      simpa using hcons
    · simp only [rawPending, hlr] at *
      simpa using hlen
  · rw [if_neg hlr]
    by_cases h1 : n < s.last_read.length
    · rw [if_pos h1]
      refine ⟨s.last_read.take n, _, rfl, ?_, ?_, hcl, rfl, rfl, rfl, rfl⟩
      · simp only [rawPending]
        rw [← List.append_assoc, List.take_append_drop]
      · simp [rawPending]
        omega
    · rw [if_neg h1]
      by_cases h2 : n = s.last_read.length
      · rw [if_pos h2]
        refine ⟨s.last_read, _, rfl, by simp [rawPending], ?_, hcl, rfl, rfl, rfl, rfl⟩
        simp [rawPending]
        omega
      · rw [if_neg h2]
        obtain ⟨q2, lr2, out, hgo, hcons, hlen⟩ := rawReadGo_spec n s.to_raw.queue
          s.last_read (by omega)
        rw [hcl, hgo]
        dsimp only
        refine ⟨out, _, rfl, ?_, ?_, hcl, rfl, rfl, rfl, rfl⟩
        · simp only [rawPending] at *
          simpa using hcons
        · simp only [rawPending] at *
          simpa using hlen

/-- C1: for every Packet with `len(data) ≤ MAX_DATA_LEN`, writing it on a
codec whose local address was set to `a`, transferring all produced bytes
through the bridge's external stream (one raw read of everything available,
one raw write of those bytes), and then reading, yields exactly one decoded
Packet equal to the input in `cmd`, `to` and `data`, whose `from` field is
the codec's local address — the caller-supplied `from` (`pfrom`) is ignored
on the outbound frame. -/
theorem roundTrip_decodes_sender_packet (a pfrom dst c : Nat) (d : List Nat)
    (ha : a < 256) (hp : pfrom < 256) (hdst : dst < 256)
    (hc : c < 4294967296) (hd : d.length ≤ LWPKT_CFG_MAX_DATA_LEN)
    (hb : ∀ b ∈ d, b < 256) :
    roundTrip a pfrom dst c d = some (.ok [⟨c, a, dst, d⟩]) := by
  have hd256 : d.length ≤ 256 := hd
  have hflen : (encodeFrame a dst c d).length = 11 + d.length := encodeFrame_length ..
  rw [roundTrip]
  have hw := LwPkt_write_success (LwPkt.set_addres (mkSystem 1024 1024) a)
    ⟨c, pfrom, dst, d⟩ rfl hd (by show 11 + d.length ≤ 1024; omega) rfl
    (by show (0:Nat) < 64; omega)
  rw [hw]
  simp only [LwPkt.set_addres, mkSystem]
  have hgo1 : rawReadGo false 1024 [encodeFrame a dst c d] []
      = ([], [], .ok (encodeFrame a dst c d)) := by
    rw [rawReadGo]
    rw [if_neg (by simp only [List.length_nil, Nat.sub_zero]; omega),
      if_neg (by simp only [List.length_nil, Nat.sub_zero]; omega)]
    simp [rawReadGo]
  rw [LwPktRaw.read, if_pos rfl]
  dsimp only
  simp only [List.nil_append]
  rw [hgo1]
  dsimp only
  rw [LwPktRaw.write]
  have hsend : Channel.try_send ⟨64, [], false⟩ (encodeFrame a dst c d)
      = (⟨64, [encodeFrame a dst c d], false⟩, .ok) := by
    rw [Channel.try_send]
    simp
  rw [hsend]
  dsimp only
  rw [LwPkt.read]
  have hrc := readChunks_frame a dst c d hc (by omega) [encodeFrame a dst c d] []
    ⟨a, .idle, ⟨0, 0, 0, []⟩⟩ ⟨1024, []⟩ []
    (by simp) rfl rfl (by show (encodeFrame a dst c d).length ≤ 1024; rw [hflen]; omega)
  rw [hrc]
  dsimp only
  rfl

/-- C1 witness: the repository's `init_test` values — `cmd 0x85`, `to 0x11`,
payload `b"some hello"`, local address `0x12`, caller `from` 0. -/
theorem roundTrip_decodes_sender_packet_witness :
    roundTrip 0x12 0 0x11 0x85 testData
      = some (.ok [⟨0x85, 0x12, 0x11, testData⟩]) :=
  roundTrip_decodes_sender_packet 0x12 0 0x11 0x85 testData
    (by norm_num) (by norm_num) (by norm_num) (by norm_num)
    (by simp [testData, LWPKT_CFG_MAX_DATA_LEN])
    (by decide)

/-- C5: `lwpkt_write` fails with a memory error on oversize payloads and
when the whole frame does not fit in the outbound RingBuffer — leaving the
buffer unchanged in both cases — and otherwise appends the entire
serialized frame (start delimiter, from/to, cmd, length, payload, checksum
over header+payload, stop delimiter) atomically. -/
theorem lwpkt_write_atomic (pkt : Lwpkt) (rb : LwRb) (dst c : Nat) (d : List Nat) :
    (LWPKT_CFG_MAX_DATA_LEN < d.length → lwpkt_write pkt rb dst c d = (rb, .ERRMEM))
    ∧ (d.length ≤ LWPKT_CFG_MAX_DATA_LEN → rb.free < 11 + d.length →
        lwpkt_write pkt rb dst c d = (rb, .ERRMEM))
    ∧ (d.length ≤ LWPKT_CFG_MAX_DATA_LEN → 11 + d.length ≤ rb.free →
        lwpkt_write pkt rb dst c d
          = ({ rb with buf := rb.buf ++ encodeFrame pkt.addr dst c d }, .OK)) := by
  have hflen : (encodeFrame pkt.addr dst c d).length = 11 + d.length :=
    encodeFrame_length ..
  refine ⟨fun hbig => ?_, fun hok hsmall => ?_, fun hok hfit => ?_⟩
  · rw [lwpkt_write, if_pos hbig]
  · rw [lwpkt_write, if_neg (by omega)]
    rw [if_pos (by rw [hflen]; omega)]
  · rw [lwpkt_write, if_neg (by omega)]
    rw [if_neg (by rw [hflen]; omega)]

/-- C5 witness: a 300-byte payload is rejected with the buffer unchanged; a
one-byte payload does not fit a RingBuffer of capacity 4; it fits an empty
RingBuffer of capacity 32, which then holds exactly the serialized frame. -/
theorem lwpkt_write_atomic_witness :
    lwpkt_write ⟨1, .idle, ⟨0, 0, 0, []⟩⟩ ⟨4, []⟩ 2 3 (List.replicate 300 7)
      = (⟨4, []⟩, .ERRMEM)
    ∧ lwpkt_write ⟨1, .idle, ⟨0, 0, 0, []⟩⟩ ⟨4, []⟩ 2 3 [7] = (⟨4, []⟩, .ERRMEM)
    ∧ lwpkt_write ⟨1, .idle, ⟨0, 0, 0, []⟩⟩ ⟨32, []⟩ 2 3 [7]
      = (⟨32, [] ++ encodeFrame 1 2 3 [7]⟩, .OK) := by
  refine ⟨?_, ?_, ?_⟩
  · exact (lwpkt_write_atomic ⟨1, .idle, ⟨0, 0, 0, []⟩⟩ ⟨4, []⟩ 2 3
      (List.replicate 300 7)).1 (by simp [LWPKT_CFG_MAX_DATA_LEN])
  · exact (lwpkt_write_atomic ⟨1, .idle, ⟨0, 0, 0, []⟩⟩ ⟨4, []⟩ 2 3 [7]).2.1
      (by simp [LWPKT_CFG_MAX_DATA_LEN]) (by simp [LwRb.free])
  · exact (lwpkt_write_atomic ⟨1, .idle, ⟨0, 0, 0, []⟩⟩ ⟨32, []⟩ 2 3 [7]).2.2
      (by simp [LWPKT_CFG_MAX_DATA_LEN]) (by simp [LwRb.free])

/-- C6 counterexample: after the full `init_test` round trip has decoded a
packet, a further `read` on the empty inbound channel returns `Ok` with an
empty batch — not the error `WaitData` the claim states — while leaving the
state (and hence all accessors) unchanged. -/
theorem read_empty_not_waitdata_counterexample :
    LwPkt.read rt4 = some (rt4, .ok [])
    ∧ (ReadRes.ok [] ≠ .failed .WaitData)
    ∧ LwPkt.get_cmd rt4 = 0x85 ∧ LwPkt.get_from rt4 = 0x12
    ∧ LwPkt.get_to rt4 = 0x11 ∧ LwPkt.get_data rt4 = testData := by
  decide

/-- C6 amended: `read` on an empty, open inbound channel returns `Ok` with
an empty batch and leaves the state — including the most recently decoded
packet behind the accessors — untouched; the modelled codec-level
`lwpkt_read` on an empty inbound RingBuffer reports `WaitData` and changes
nothing. -/
theorem read_empty_channel_noop :
    (∀ s : SysState, s.to_pkt.queue = [] → s.to_pkt.closed = false →
      LwPkt.read s = some (s, .ok []))
    ∧ (∀ (pkt : Lwpkt) (rb : LwRb), rb.buf = [] →
        lwpkt_read pkt rb = (pkt, rb, .WAITDATA)) := by
  constructor
  · intro s hq hcl
    rw [LwPkt.read, hq]
    rw [show readChunks [] s.lwpkt s.read_buffer [] =
      some (s.lwpkt, s.read_buffer, [], .inl []) from rfl]
    dsimp only
    rw [if_neg (by rw [hcl]; simp)]
    rw [← hq]
  · exact fun pkt rb h => lwpkt_read_empty pkt rb h

/-- C6 amended witness: the fresh codec of `LwPkt::new`. -/
theorem read_empty_channel_noop_witness :
    LwPkt.read (mkSystem 1024 1024) = some (mkSystem 1024 1024, .ok [])
    ∧ lwpkt_read ⟨0, .idle, ⟨0, 0, 0, []⟩⟩ ⟨8, []⟩
      = (⟨0, .idle, ⟨0, 0, 0, []⟩⟩, ⟨8, []⟩, .WAITDATA) :=
  ⟨read_empty_channel_noop.1 (mkSystem 1024 1024) rfl rfl,
   read_empty_channel_noop.2 ⟨0, .idle, ⟨0, 0, 0, []⟩⟩ ⟨8, []⟩ rfl⟩

/-- Multi-call conservation: over any sequence of raw reads on an open
channel, the concatenation of the returned byte runs followed by what is
still pending equals what was pending at the start — no byte is lost,
duplicated, or reordered, and no chunk boundary is observable. -/
theorem rawReadMany_conserve :
    ∀ (ns : List Nat) (s : SysState), s.to_raw.closed = false →
      (rawReadMany s ns).2.flatten ++ rawPending (rawReadMany s ns).1
        = rawPending s := by
  intro ns
  induction ns with
  | nil => intro s _; simp [rawReadMany]
  | cons n ns ih =>
    intro s hcl
    obtain ⟨out, s2, hread, hcons, -, hcl2, -, -, -, -⟩ := rawRead_spec s n hcl
    rw [rawReadMany, hread]
    rcases hmany : rawReadMany s2 ns with ⟨s3, outs⟩
    dsimp only
    have ih2 := ih s2 hcl2
    rw [hmany] at ih2
    dsimp only at ih2
    rw [hmany]
    dsimp only
    rw [List.flatten_cons, List.append_assoc, ih2, hcons]

/-- C7: the raw endpoint's `read` never blocks and has pure byte-stream
semantics. On an open channel it always succeeds, copies exactly
`min n available` bytes, and conserves the byte stream across any sequence
of calls regardless of how the sender chunked it; with nothing buffered it
returns a zero count (`Ok []`) rather than an end-of-stream error, and it
errs exactly when the counterpart is torn down and nothing remains. -/
theorem raw_read_stream_semantics :
    (∀ (s : SysState) (n : Nat), s.to_raw.closed = false →
      ∃ out s2, LwPktRaw.read s n = (s2, .ok out)
        ∧ out ++ rawPending s2 = rawPending s
        ∧ out.length = min n (rawPending s).length)
    ∧ (∀ (ns : List Nat) (s : SysState), s.to_raw.closed = false →
        (rawReadMany s ns).2.flatten ++ rawPending (rawReadMany s ns).1
          = rawPending s)
    ∧ (∀ (s : SysState) (n : Nat), s.to_raw.queue = [] → s.last_read = [] →
        s.to_raw.closed = false → LwPktRaw.read s n = (s, .ok []))
    ∧ (∀ (s : SysState) (n : Nat), s.to_raw.queue = [] → s.last_read = [] →
        s.to_raw.closed = true → (LwPktRaw.read s n).2 = .brokenPipe) := by
  refine ⟨?_, rawReadMany_conserve, ?_, ?_⟩
  · intro s n hcl
    obtain ⟨out, s2, hread, hcons, hlen, -, -, -, -, -⟩ := rawRead_spec s n hcl
    exact ⟨out, s2, hread, hcons, hlen⟩
  · intro s n hq hlr hcl
    rw [LwPktRaw.read, if_pos hlr, hq]
    rw [show rawReadGo s.to_raw.closed n [] [] = ([], [], if s.to_raw.closed
      then .brokenPipe else .ok []) from rfl]
    rw [hcl]
    dsimp only
    rw [if_neg (by simp), ← hq]
    rcases s with ⟨pkt, rrb, wrb, traw, tpkt, lr⟩
    simp only at hlr
    subst hlr
    rfl
  · intro s n hq hlr hcl
    rw [LwPktRaw.read, if_pos hlr, hq]
    rw [show rawReadGo s.to_raw.closed n [] [] = ([], [], if s.to_raw.closed
      then .brokenPipe else .ok []) from rfl]
    rw [hcl]
    rfl

/-- C7 witness: a fresh codec's raw endpoint with one three-byte chunk
queued, read with a two-byte and then a four-byte buffer. -/
theorem raw_read_stream_semantics_witness :
    (∃ out s2,
      LwPktRaw.read { mkSystem 8 8 with to_raw := ⟨64, [[1, 2, 3]], false⟩ } 2
          = (s2, .ok out)
        ∧ out ++ rawPending s2
            = rawPending { mkSystem 8 8 with to_raw := ⟨64, [[1, 2, 3]], false⟩ }
        ∧ out.length = min 2
            (rawPending { mkSystem 8 8 with to_raw := ⟨64, [[1, 2, 3]], false⟩ }).length)
    ∧ (rawReadMany { mkSystem 8 8 with to_raw := ⟨64, [[1, 2, 3]], false⟩ }
        [2, 4]).2.flatten
        ++ rawPending (rawReadMany
            { mkSystem 8 8 with to_raw := ⟨64, [[1, 2, 3]], false⟩ } [2, 4]).1
        = rawPending { mkSystem 8 8 with to_raw := ⟨64, [[1, 2, 3]], false⟩ }
    ∧ LwPktRaw.read (mkSystem 8 8) 5 = (mkSystem 8 8, .ok [])
    ∧ (LwPktRaw.read { mkSystem 8 8 with to_raw := ⟨64, [], true⟩ } 5).2
        = .brokenPipe :=
  ⟨raw_read_stream_semantics.1 _ 2 rfl,
   raw_read_stream_semantics.2.1 [2, 4] _ rfl,
   raw_read_stream_semantics.2.2.1 (mkSystem 8 8) 5 rfl rfl rfl,
   raw_read_stream_semantics.2.2.2 _ 5 rfl rfl rfl⟩

/-- The inner loop genuinely diverges — for every fuel — on a zero-capacity
inbound RingBuffer and a nonempty chunk: no bytes can ever be stored, and
the decoder has nothing to consume, so no progress is possible. -/
theorem chunkLoop_stuck (fuel : Nat) :
    ∀ (pkt : Lwpkt) (acc : List Package),
      chunkLoop fuel pkt ⟨0, []⟩ [7] 0 acc = none := by
  induction fuel with
  | zero => intro pkt acc; rfl
  | succ f ih =>
    intro pkt acc
    rw [chunkLoop]
    rw [if_pos (by simp)]
    rw [show lwrb_write ⟨0, []⟩ (List.drop 0 [7]) = (⟨0, []⟩, 0) from rfl]
    dsimp only
    rw [lwpkt_read_empty pkt ⟨0, []⟩ rfl]
    dsimp only
    exact ih pkt acc

/-- C10 counterexample: `LwPkt::read` with a zero-capacity inbound
RingBuffer and one nonempty queued chunk never terminates (the fuelled
model returns `none`; `chunkLoop_stuck` shows no fuel suffices). -/
theorem read_zero_capacity_diverges : LwPkt.read s10 = none := by
  rw [LwPkt.read]
  rw [show s10.to_pkt.queue = [[7]] from rfl]
  rw [readChunks]
  rw [show chunkFuel [7] s10.read_buffer = 4 from rfl]
  rw [show (s10.read_buffer : LwRb) = ⟨0, []⟩ from rfl]
  rw [chunkLoop_stuck 4 s10.lwpkt []]

/-- C10 amended: `LwPkt::read` terminates for every finite content of the
inbound channel and inbound RingBuffer, provided the inbound RingBuffer has
positive capacity (the repository always constructs it with capacity 1024;
with capacity zero the inner loop makes no progress, see the counterexample). -/
theorem read_terminates_with_positive_capacity (s : SysState)
    (hcap : 1 ≤ s.read_buffer.cap) : (LwPkt.read s).isSome := by
  rw [LwPkt.read]
  have h := readChunks_isSome s.to_pkt.queue s.lwpkt s.read_buffer [] hcap
  rcases h2 : readChunks s.to_pkt.queue s.lwpkt s.read_buffer []
    with _ | ⟨pkt1, rb1, restQ, r⟩
  · rw [h2] at h; simp at h
  · cases r with
    | inl acc => dsimp only; split <;> simp
    | inr e => simp

/-- C10 amended witness: the fresh codec of the repository's test, with one
queued chunk. -/
theorem read_terminates_with_positive_capacity_witness :
    (LwPkt.read { mkSystem 1024 1024 with
      to_pkt := ⟨64, [[7]], false⟩ }).isSome :=
  read_terminates_with_positive_capacity
    { mkSystem 1024 1024 with to_pkt := ⟨64, [[7]], false⟩ } (by decide)

/-- A sequence of external raw writes that fits the channel capacity queues
every chunk, in order. -/
theorem pushAll_queue :
    ∀ (chunks : List (List Nat)) (s : SysState),
      s.to_pkt.closed = false →
      s.to_pkt.queue.length + chunks.length ≤ s.to_pkt.cap →
      pushAll chunks s
        = { s with to_pkt := { s.to_pkt with
              queue := s.to_pkt.queue ++ chunks } } := by
  intro chunks
  induction chunks with
  | nil => intro s _ _; simp [pushAll]
  | cons chunk rest ih =>
    intro s hcl hlen
    rw [pushAll, LwPktRaw.write]
    have hsend : s.to_pkt.try_send chunk
        = ({ s.to_pkt with queue := s.to_pkt.queue ++ [chunk] }, .ok) := by
      rw [Channel.try_send, if_neg (by rw [hcl]; simp),
        if_neg (by simp only [List.length_cons] at hlen; omega)]
    rw [hsend]
    dsimp only
    rw [ih _ (by simpa using hcl)
      (by simp only [List.length_append, List.length_cons, List.length_nil] at *; omega)]
    simp [List.append_assoc]

/-- C2 counterexample: after filling the outbound channel with 64 writes,
the 65th write fails with `ErrorMem` and leaves the state exactly as it
was — the frame it serialized (drained out of the RingBuffer before the
failed push) is on neither the channel nor the RingBuffer, so its bytes are
silently dropped, contrary to the claim that every serialized byte remains
on the channel or retrievable. -/
theorem write_backpressure_drops_bytes_counterexample :
    iterWrite c2pkgA 64 c2sys = some c2full
    ∧ LwPkt.write c2full c2pkgB = (c2full, .failed .ErrorMem)
    ∧ fr2 ∉ c2full.to_raw.queue
    ∧ c2full.write_buffer.buf = []
    ∧ fr2 ≠ []
    ∧ encodeFrame c2full.lwpkt.addr c2pkgB.to_ c2pkgB.cmd c2pkgB.data = fr2 := by
  decide

/-- C2 amended: with the outbound channel bounded at 64, sixty-four
undrained writes succeed, the 65th fails with `ErrorMem`, the channel then
holds exactly 64 complete frames (no partial frame), and the outbound
RingBuffer is empty — but the failed write's frame is discarded, not
retrievable. -/
theorem write_backpressure_65th_fails :
    iterWrite c2pkgA 64 c2sys = some c2full
    ∧ LwPkt.write c2full c2pkgB = (c2full, .failed .ErrorMem)
    ∧ c2full.to_raw.queue = List.replicate 64 (encodeFrame 1 2 3 [7])
    ∧ c2full.write_buffer.buf = [] := by
  decide

/-- C3 counterexample: two complete frames delivered inside one single
chunk yield only one decoded Packet from one `read()` call — the second
frame stays in the RingBuffer because `lwpkt_read` runs once per chunk
write and returns at the first complete frame. -/
theorem read_two_frames_one_chunk_counterexample :
    (LwPkt.read s3two).map Prod.snd = some (.ok [⟨3, 1, 2, [7]⟩])
    ∧ (ReadRes.ok [⟨3, 1, 2, [7]⟩] ≠ .ok [⟨3, 1, 2, [7]⟩, ⟨4, 1, 2, [9]⟩]) := by
  decide

/-- C3 amended: M well-formed frames delivered one chunk each are returned
by one `read()` as exactly M Packets in arrival order; a trailing partial
frame is absorbed into the decoder state and completed by a later call once
its remaining bytes arrive. -/
theorem read_batch_one_frame_per_chunk :
    (∀ (l : List Package) (s : SysState),
      s.to_pkt.queue = l.map encodePkg → s.to_pkt.closed = false →
      s.lwpkt.state = .idle → s.read_buffer.buf = [] →
      (∀ q ∈ l, q.cmd < 4294967296 ∧ q.data.length < 65536
        ∧ 11 + q.data.length ≤ s.read_buffer.cap) →
      (LwPkt.read s).map Prod.snd = some (.ok l))
    ∧ LwPkt.read s3part = some (s3mid, .ok [⟨3, 1, 2, [7]⟩])
    ∧ (LwPkt.read { s3mid with to_pkt := ⟨64, [fr2.drop 5], false⟩ }).map Prod.snd
        = some (.ok [⟨4, 1, 2, [9]⟩]) := by
  refine ⟨?_, by decide, by decide⟩
  intro l s hq hcl hst hrb hbound
  rw [LwPkt.read, hq]
  obtain ⟨pkt2, hrc, -⟩ := readChunks_frames l s.lwpkt s.read_buffer []
    (fun q hql => ⟨(hbound q hql).1, (hbound q hql).2.1, by
      rw [encodePkg, encodeFrame_length]; exact (hbound q hql).2.2⟩) hst hrb
  rw [hrc]
  dsimp only
  rw [if_neg (by rw [hcl]; simp)]
  simp

/-- C3 amended witness: two frames, one chunk each, on a fresh codec. -/
theorem read_batch_one_frame_per_chunk_witness :
    (LwPkt.read { mkSystem 1024 1024 with
        to_pkt := ⟨64, [⟨3, 1, 2, [7]⟩, ⟨4, 1, 2, [9]⟩].map encodePkg, false⟩ }).map
        Prod.snd
      = some (.ok [⟨3, 1, 2, [7]⟩, ⟨4, 1, 2, [9]⟩]) :=
  read_batch_one_frame_per_chunk.1 [⟨3, 1, 2, [7]⟩, ⟨4, 1, 2, [9]⟩]
    { mkSystem 1024 1024 with
      to_pkt := ⟨64, [⟨3, 1, 2, [7]⟩, ⟨4, 1, 2, [9]⟩].map encodePkg, false⟩ }
    rfl rfl rfl rfl (by decide)

/-- C4: flipping any single bit of any payload byte or of the checksum byte
of the valid `init_test` frame makes the codec-level decode report exactly
one `ERRCRC` for that frame, with the decoder reset to `Idle`; a second
decode call then finds the next start delimiter and decodes the following
valid frame normally, emptying the buffer — the corrupted frame is dropped
and never retried. -/
theorem bitflip_one_errcrc_then_resync :
    ∀ i, i < 11 → ∀ k, k < 8 →
      (lwpkt_read ⟨0, .idle, ⟨0, 0, 0, []⟩⟩ ⟨1024, flipBit i k ++ fr2⟩).2.2
          = .ERRCRC
      ∧ (lwpkt_read ⟨0, .idle, ⟨0, 0, 0, []⟩⟩ ⟨1024, flipBit i k ++ fr2⟩).1.state
          = .idle
      ∧ (lwpkt_read
            (lwpkt_read ⟨0, .idle, ⟨0, 0, 0, []⟩⟩ ⟨1024, flipBit i k ++ fr2⟩).1
            (lwpkt_read ⟨0, .idle, ⟨0, 0, 0, []⟩⟩ ⟨1024, flipBit i k ++ fr2⟩).2.1).2.2
          = .VALID
      ∧ (lwpkt_read
            (lwpkt_read ⟨0, .idle, ⟨0, 0, 0, []⟩⟩ ⟨1024, flipBit i k ++ fr2⟩).1
            (lwpkt_read ⟨0, .idle, ⟨0, 0, 0, []⟩⟩ ⟨1024, flipBit i k ++ fr2⟩).2.1).1.m
          = ⟨4, 1, 2, [9]⟩
      ∧ (lwpkt_read
            (lwpkt_read ⟨0, .idle, ⟨0, 0, 0, []⟩⟩ ⟨1024, flipBit i k ++ fr2⟩).1
            (lwpkt_read ⟨0, .idle, ⟨0, 0, 0, []⟩⟩ ⟨1024, flipBit i k ++ fr2⟩).2.1).2.1.buf
          = [] := by
  decide

/-- C4 witness: bit 0 of the first payload byte. -/
theorem bitflip_one_errcrc_then_resync_witness :
    (lwpkt_read ⟨0, .idle, ⟨0, 0, 0, []⟩⟩ ⟨1024, flipBit 0 0 ++ fr2⟩).2.2
        = .ERRCRC
    ∧ (lwpkt_read ⟨0, .idle, ⟨0, 0, 0, []⟩⟩ ⟨1024, flipBit 0 0 ++ fr2⟩).1.state
        = .idle
    ∧ (lwpkt_read
          (lwpkt_read ⟨0, .idle, ⟨0, 0, 0, []⟩⟩ ⟨1024, flipBit 0 0 ++ fr2⟩).1
          (lwpkt_read ⟨0, .idle, ⟨0, 0, 0, []⟩⟩ ⟨1024, flipBit 0 0 ++ fr2⟩).2.1).2.2
        = .VALID
    ∧ (lwpkt_read
          (lwpkt_read ⟨0, .idle, ⟨0, 0, 0, []⟩⟩ ⟨1024, flipBit 0 0 ++ fr2⟩).1
          (lwpkt_read ⟨0, .idle, ⟨0, 0, 0, []⟩⟩ ⟨1024, flipBit 0 0 ++ fr2⟩).2.1).1.m
        = ⟨4, 1, 2, [9]⟩
    ∧ (lwpkt_read
          (lwpkt_read ⟨0, .idle, ⟨0, 0, 0, []⟩⟩ ⟨1024, flipBit 0 0 ++ fr2⟩).1
          (lwpkt_read ⟨0, .idle, ⟨0, 0, 0, []⟩⟩ ⟨1024, flipBit 0 0 ++ fr2⟩).2.1).2.1.buf
        = [] :=
  bitflip_one_errcrc_then_resync 0 (by norm_num) 0 (by norm_num)

/-- C8 counterexample: splitting the 75-byte frame into 75 single-byte
external writes (a partition of the frame, N = 75 > 64) yields no decoded
Packet — the channel accepts only 64 chunks and the writes beyond capacity
return `Ok(0)`, silently dropping their slices — while a single unsplit
external write decodes the Packet. -/
theorem split_over_capacity_counterexample :
    (bigFrame.map fun b => [b]).flatten = bigFrame
    ∧ (LwPkt.read (pushAll (bigFrame.map fun b => [b])
        (mkSystem 1024 1024))).map Prod.snd = some (.ok [])
    ∧ (LwPkt.read (pushAll [bigFrame] (mkSystem 1024 1024))).map Prod.snd
        = some (.ok [⟨3, 1, 2, bigd⟩])
    ∧ (some (ReadRes.ok []) ≠ some (ReadRes.ok [⟨3, 1, 2, bigd⟩])) := by
  decide

/-- C8 amended: for every well-formed frame and every partition of its
bytes into at most 64 consecutive slices, performing the external writes of
the slices followed by one codec `read()` yields exactly the frame's
Packet — in particular the same result as a single unsplit external write
(the partition into one slice). -/
theorem split_le_64_chunks_same_packet (a dst c : Nat) (d : List Nat)
    (chunks : List (List Nat)) (hc : c < 4294967296)
    (hd : d.length ≤ LWPKT_CFG_MAX_DATA_LEN)
    (hflat : chunks.flatten = encodeFrame a dst c d)
    (hn : chunks.length ≤ 64) :
    (LwPkt.read (pushAll chunks (mkSystem 1024 1024))).map Prod.snd
      = some (.ok [⟨c, a, dst, d⟩]) := by
  have hd256 : d.length ≤ 256 := hd
  rw [pushAll_queue chunks (mkSystem 1024 1024) rfl
    (by simpa [mkSystem] using hn)]
  rw [LwPkt.read]
  have hrc := readChunks_frame a dst c d hc (by omega) chunks []
    (mkSystem 1024 1024).lwpkt (mkSystem 1024 1024).read_buffer []
    (by simpa using hflat) rfl rfl
    (by show (encodeFrame a dst c d).length ≤ 1024; rw [encodeFrame_length]; omega)
  rw [show ({ mkSystem 1024 1024 with to_pkt := { (mkSystem 1024 1024).to_pkt with
      queue := (mkSystem 1024 1024).to_pkt.queue ++ chunks } } : SysState).to_pkt.queue
    = chunks by simp [mkSystem]]
  rw [hrc]
  dsimp only
  rfl

/-- C8 amended witness: one frame split into a 3-byte and an 9-byte slice. -/
theorem split_le_64_chunks_same_packet_witness :
    (LwPkt.read (pushAll [fr91.take 3, fr91.drop 3]
        (mkSystem 1024 1024))).map Prod.snd
      = some (.ok [⟨3, 1, 2, [7]⟩]) :=
  split_le_64_chunks_same_packet 1 2 3 [7] [fr91.take 3, fr91.drop 3]
    (by norm_num) (by simp [LWPKT_CFG_MAX_DATA_LEN]) (by decide) (by decide)

/-- C9: when a decode step errors inside `LwPkt::read`, the call returns
that error immediately and discards both the Packets already decoded in the
same call and the not-yet-stored tail of the chunk being consumed: on
`s9pre` the first chunk's Packet `⟨3, 1, 2, [7]⟩` is decoded, the second
chunk's corrupted frame raises `ErrorCRC`, and the call returns the bare
error. The post state retains only the corrupted frame's stop byte and the
four bytes of the next frame that fit in the RingBuffer; the remaining
eight bytes of the chunk are gone, the queue is empty, and a later call
returns nothing — neither the decoded Packet nor the truncated frame is
ever delivered. -/
theorem read_error_discards_results_and_chunk_tail :
    LwPkt.read s9pre = some (s9post, .failed .ErrorCRC)
    ∧ s9post.read_buffer.buf = [0x55, 0xAA, 1, 2, 4]
    ∧ s9post.to_pkt.queue = []
    ∧ (corr9 ++ fr2).length = 24
    ∧ LwPkt.read s9post = some (s9post, .ok []) := by
  decide
